import Mathlib

/-!
Verification of the visisort core against its Python sources.

The development shallowly embeds the pieces of the repository that the
checked properties talk about:

* `Synchronizer` models `visisort/synchronizer.py`.  Every method of the
  Python class runs entirely under `self.lock` (the condition variable
  wraps the same lock), so each method is one atomic state transition and
  the class is embedded as a pure state machine.  The `blocked` field
  records the threads currently waiting inside `condition.wait()`, and
  `rounds` counts how many times the round-complete hook `synchronized()`
  has fired.
* `SortableArray` models `visisort/sortable.py` with Python list indexing
  semantics (negative keys address from the end, out-of-range keys raise,
  modelled as `none`).
* The sort algorithm classes of `visisort/sorters.py` are embedded as
  functions from the input array to the list of yielded `SortOperation`
  steps (`List Int` stands for `self.array`).  The two bubble sort
  variants are embedded over arbitrary inclusive bounds `[lo, hi]`, with
  wrappers for the default keyword arguments `lo = 0`,
  `hi = len(array) - 1` (how `main.py` invokes the generators); the other
  algorithms are embedded at the default bounds.
* `binary_radixsort_lsb` models the function of the same name in
  `visisort/main.py`.
-/

/-! ## Synchronizer (visisort/synchronizer.py) -/

/-- State of a `Synchronizer` object: `synchronizees` and `in_sync` are the
two sets the Python object owns, `blocked` is the set of participants whose
thread is currently suspended in `condition.wait()`, and `rounds` counts
invocations of the `synchronized()` hook. -/
structure Synchronizer where
  synchronizees : Finset Nat
  in_sync : Finset Nat
  blocked : Finset Nat
  rounds : Nat
deriving DecidableEq

/-- `Synchronizer.__init__`: both sets start empty. -/
def Synchronizer.init : Synchronizer :=
  { synchronizees := ∅, in_sync := ∅, blocked := ∅, rounds := 0 }

/-- `Synchronizer.add`: adds the synchronizee to `synchronizees` and to
`in_sync` (both unconditionally, under the lock). -/
def Synchronizer.add (s : Synchronizer) (p : Nat) : Synchronizer :=
  { s with
    synchronizees := insert p s.synchronizees
    in_sync := insert p s.in_sync }

/-- `Synchronizer.done`: discards the synchronizee from `synchronizees` and
from `in_sync`.  The Python method does nothing else: it neither checks
whether `in_sync` became empty nor notifies the condition variable, so
`blocked` and `rounds` are untouched. -/
def Synchronizer.done (s : Synchronizer) (p : Nat) : Synchronizer :=
  { s with
    synchronizees := s.synchronizees.erase p
    in_sync := s.in_sync.erase p }

/-- `Synchronizer.sync`: discards the caller from `in_sync`; if `in_sync`
is now empty it calls `synchronized()`, refills `in_sync` from
`synchronizees` (`in_sync` is empty at that point, so `update` makes the
two sets equal) and wakes every waiter via `notifyAll`; otherwise the
caller waits on the condition.  The returned flag is `true` when the
caller closed the round (returned without blocking). -/
def Synchronizer.sync (s : Synchronizer) (p : Nat) : Synchronizer × Bool :=
  let pending := s.in_sync.erase p
  if pending = ∅ then
    ({ s with
        in_sync := s.synchronizees
        blocked := ∅
        rounds := s.rounds + 1 }, true)
  else
    ({ s with
        in_sync := pending
        blocked := insert p s.blocked }, false)

/-- Fold a list of `sync` calls (ignoring the returned flags). -/
def Synchronizer.syncAll (s : Synchronizer) (ps : List Nat) : Synchronizer :=
  ps.foldl (fun st p => (st.sync p).1) s

/-! ## SortableArray (visisort/sortable.py) -/

/-- State of a `SortableArray`: the underlying list plus the two access
counters (reset to 0 by `resetStatistics`, which `__init__` calls). -/
structure SortableArray where
  ary : List Int
  readcount : Nat
  writecount : Nat
deriving DecidableEq

/-- `SortableArray(iterable)`. -/
def SortableArray.init (l : List Int) : SortableArray :=
  { ary := l, readcount := 0, writecount := 0 }

/-- Python list index resolution: a key `k` with `0 ≤ k < n` addresses
position `k`; a key with `-n ≤ k < 0` addresses position `n + k`; any
other key raises `IndexError` (modelled as `none`). -/
def pyIndex (n : Nat) (key : Int) : Option Nat :=
  if 0 ≤ key ∧ key < (n : Int) then some key.toNat
  else if -(n : Int) ≤ key ∧ key < 0 then some (key + (n : Int)).toNat
  else none

/-- `SortableArray.__getitem__`: reads `self.ary[key]` first (so an
out-of-range key raises before any counter changes), then increments
`readcount` and returns the value. -/
def SortableArray.getitem (a : SortableArray) (key : Int) :
    Option (Int × SortableArray) :=
  match pyIndex a.ary.length key with
  | some k => some (a.ary.getD k 0, { a with readcount := a.readcount + 1 })
  | none => none

/-- `SortableArray.__setitem__`: writes `self.ary[key]` first (out-of-range
raises before any counter changes), then increments `writecount`. -/
def SortableArray.setitem (a : SortableArray) (key : Int) (value : Int) :
    Option SortableArray :=
  match pyIndex a.ary.length key with
  | some k =>
      some { a with ary := a.ary.set k value, writecount := a.writecount + 1 }
  | none => none

/-- `SortableArray.__len__`: delegates to the list and touches no counter. -/
def SortableArray.len (a : SortableArray) : Nat := a.ary.length

/-- One array operation issued by a client of `SortableArray`. -/
inductive ArrayOp where
  | get (key : Int)
  | set (key : Int) (value : Int)
  | length
deriving DecidableEq

/-- Apply one operation; `none` when the underlying Python call raises. -/
def SortableArray.applyOp (a : SortableArray) : ArrayOp → Option SortableArray
  | ArrayOp.get k => (a.getitem k).map Prod.snd
  | ArrayOp.set k v => a.setitem k v
  | ArrayOp.length => some a

/-- Run a list of operations in order; `none` as soon as one raises. -/
def SortableArray.runOps (a : SortableArray) : List ArrayOp → Option SortableArray
  | [] => some a
  | op :: ops => (a.applyOp op).bind fun a2 => a2.runOps ops

/-- Number of `get` operations in a list of operations. -/
def countGets (ops : List ArrayOp) : Nat :=
  (ops.filter fun op => match op with | ArrayOp.get _ => true | _ => false).length

/-- Number of `set` operations in a list of operations. -/
def countSets (ops : List ArrayOp) : Nat :=
  (ops.filter fun op => match op with | ArrayOp.set _ _ => true | _ => false).length

/-! ## Helper lemmas about the synchronizer -/

lemma Synchronizer.syncAll_nil (s : Synchronizer) : s.syncAll [] = s := rfl

lemma Synchronizer.syncAll_cons (s : Synchronizer) (p : Nat) (ps : List Nat) :
    s.syncAll (p :: ps) = ((s.sync p).1).syncAll ps := rfl

lemma Synchronizer.sync_not_close (s : Synchronizer) (p : Nat)
    (h : s.in_sync.erase p ≠ ∅) :
    (s.sync p).1 = { s with
        in_sync := s.in_sync.erase p
        blocked := insert p s.blocked } ∧
    (s.sync p).2 = false := by
  simp [Synchronizer.sync, h]

lemma Synchronizer.syncAll_no_close :
    ∀ (ps : List Nat) (s : Synchronizer),
    ps.Nodup → (∀ q ∈ ps, q ∈ s.in_sync) → ps.toFinset ≠ s.in_sync →
    (s.syncAll ps).in_sync = s.in_sync \ ps.toFinset ∧
    (s.syncAll ps).blocked = s.blocked ∪ ps.toFinset ∧
    (s.syncAll ps).rounds = s.rounds ∧
    (s.syncAll ps).synchronizees = s.synchronizees
  | [], s, _, _, _ => by simp [Synchronizer.syncAll]
  | p :: rest, s, hnd, hmem, hne => by
      have hp : p ∈ s.in_sync := hmem p (by simp)
      have hpnotin : p ∉ rest := (List.nodup_cons.mp hnd).1
      have hndr : rest.Nodup := (List.nodup_cons.mp hnd).2
      have herase : s.in_sync.erase p ≠ ∅ := by
        intro h0
        apply hne
        have hins : s.in_sync = {p} := by
          apply Finset.Subset.antisymm
          · intro x hx
            by_contra hxp
            have hx2 : x ∈ s.in_sync.erase p :=
              Finset.mem_erase.mpr ⟨by simpa using hxp, hx⟩
            simp [h0] at hx2
          · simpa using hp
        have hrest : rest = [] := by
          rcases rest with _ | ⟨r, rest2⟩
          · rfl
          · exfalso
            have hr : r ∈ s.in_sync := hmem r (by simp)
            have : r = p := by simpa [hins] using hr
            exact hpnotin (by simp [this])
        subst hrest
        simp [hins]
      obtain ⟨hstate, _⟩ := Synchronizer.sync_not_close s p herase
      rw [Synchronizer.syncAll_cons, hstate]
      have hmem2 : ∀ q ∈ rest, q ∈ s.in_sync.erase p := by
        intro q hq
        refine Finset.mem_erase.mpr ⟨?_, hmem q (by simp [hq])⟩
        intro hqp
        exact hpnotin (hqp ▸ hq)
      have hne2 : rest.toFinset ≠ s.in_sync.erase p := by
        intro heq
        apply hne
        have : insert p rest.toFinset = insert p (s.in_sync.erase p) := by rw [heq]
        rw [Finset.insert_erase hp] at this
        simpa [List.toFinset_cons] using this
      obtain ⟨h1, h2, h3, h4⟩ :=
        Synchronizer.syncAll_no_close rest
          { s with in_sync := s.in_sync.erase p, blocked := insert p s.blocked }
          hndr hmem2 hne2
      refine ⟨?_, ?_, by simpa using h3, by simpa using h4⟩
      · rw [h1]
        ext x
        simp only [Finset.mem_sdiff, Finset.mem_erase, List.toFinset_cons,
          Finset.mem_insert, List.mem_toFinset]
        tauto
      · rw [h2]
        ext x
        simp only [Finset.mem_union, Finset.mem_insert, List.toFinset_cons,
          List.mem_toFinset]
        tauto

/-- C1: for every synchronizer state and every participant p registered and
still in pending, calling leave(p) removes p from participants and from
pending and re-checks the closing condition: if every remaining registered
participant has already called sync() in the current round (pending becomes
empty), the round closes immediately and all blocked sync() callers are
released, so no caller is never left waiting on a departed participant.
THE CODE VIOLATES THIS: `done` only discards the participant from the two
sets; it never re-evaluates the closing condition and never notifies the
condition variable.  Concretely, starting from an empty synchronizer, after
`add 0`, `add 1` and `sync 1` (participant 1 blocks, pending = {0}),
calling `done 0` empties pending, yet participant 1 stays blocked, the
round counter does not advance, and pending is not reset to the remaining
participant set {1}: participant 1 waits forever on the departed peer. -/
theorem C1_done_leaves_waiters_blocked :
    (((Synchronizer.init.add 0).add 1).sync 1).2 = false ∧
    ((((Synchronizer.init.add 0).add 1).sync 1).1).in_sync = {0} ∧
    ((((Synchronizer.init.add 0).add 1).sync 1).1).blocked = {1} ∧
    (((((Synchronizer.init.add 0).add 1).sync 1).1).done 0).synchronizees = {1} ∧
    (((((Synchronizer.init.add 0).add 1).sync 1).1).done 0).in_sync = ∅ ∧
    (((((Synchronizer.init.add 0).add 1).sync 1).1).done 0).blocked = {1} ∧
    (((((Synchronizer.init.add 0).add 1).sync 1).1).done 0).rounds = 0 := by
  decide

/-- C2: sync(p) removes p from pending; if pending thereby becomes empty
the round closes (round-complete hook fires, pending is reset to exactly
the registered participants, every blocked caller is released, the closing
caller returns immediately); otherwise the caller blocks, and starting
from a fresh round no caller's sync() returns before all registered
participants have called sync() in that round: after any number of
distinct calls short of the full participant set, the round counter is
unchanged and every caller so far sits in the blocked set. -/
theorem C2_sync_is_a_barrier (s : Synchronizer) (ps : List Nat)
    (hfresh : s.in_sync = s.synchronizees) (hblk : s.blocked = ∅)
    (hnd : ps.Nodup) (hmem : ∀ q ∈ ps, q ∈ s.synchronizees)
    (hlt : ps.length < s.synchronizees.card) :
    ((s.syncAll ps).rounds = s.rounds ∧
     (s.syncAll ps).blocked = ps.toFinset ∧
     (s.syncAll ps).in_sync = s.synchronizees \ ps.toFinset) ∧
    (∀ (t : Synchronizer) (q : Nat),
      ((t.sync q).2 = true ↔ t.in_sync.erase q = ∅) ∧
      ((t.sync q).2 = true →
        (t.sync q).1.in_sync = t.synchronizees ∧
        (t.sync q).1.blocked = ∅ ∧
        (t.sync q).1.rounds = t.rounds + 1) ∧
      ((t.sync q).2 = false →
        (t.sync q).1.in_sync = t.in_sync.erase q ∧
        (t.sync q).1.blocked = insert q t.blocked ∧
        (t.sync q).1.rounds = t.rounds)) := by
  constructor
  · have hne : ps.toFinset ≠ s.in_sync := by
      intro heq
      have hc1 : ps.toFinset.card ≤ ps.length := ps.toFinset_card_le
      rw [heq, hfresh] at hc1
      omega
    obtain ⟨h1, h2, h3, h4⟩ := Synchronizer.syncAll_no_close ps s hnd
      (by intro q hq; rw [hfresh]; exact hmem q hq) hne
    exact ⟨h3, by simp [h2, hblk], by rw [h1, hfresh]⟩
  · intro t q
    by_cases h : t.in_sync.erase q = ∅ <;>
      simp [Synchronizer.sync, h]

/-- Witness for C2 at a concrete input: two registered participants, one of
them calls sync and blocks without closing the round. -/
theorem C2_sync_is_a_barrier_witness :
    ((Synchronizer.mk {0, 1} {0, 1} ∅ 0).syncAll [0]).rounds = 0 ∧
    ((Synchronizer.mk {0, 1} {0, 1} ∅ 0).syncAll [0]).blocked =
      ([0] : List Nat).toFinset ∧
    ((Synchronizer.mk {0, 1} {0, 1} ∅ 0).syncAll [0]).in_sync =
      ({0, 1} : Finset Nat) \ ([0] : List Nat).toFinset :=
  (C2_sync_is_a_barrier (Synchronizer.mk {0, 1} {0, 1} ∅ 0) [0]
    rfl rfl (by decide) (by decide) (by decide)).1

/-- C5 as stated is false on the code: join (`add`) inserts the new
participant into `in_sync` unconditionally, so a participant joining while
a round is mid-flight IS added to the current round's pending obligations.
Concretely: participants 0 and 1 are registered, participant 0 has called
sync and is blocked (round mid-flight); after `add 2`, the newcomer 2 is
in pending, and participant 1's subsequent sync does not close the round
(participant 0 stays blocked, waiting on the newcomer). -/
theorem C5_counterexample :
    2 ∈ (((((Synchronizer.init.add 0).add 1).sync 0).1).add 2).in_sync ∧
    (((((((Synchronizer.init.add 0).add 1).sync 0).1).add 2).sync 1).2 = false) ∧
    0 ∈ ((((((Synchronizer.init.add 0).add 1).sync 0).1).add 2).sync 1).1.blocked := by
  decide

/-- C5 amended: join (`add`) adds the participant to both `synchronizees`
and `in_sync` unconditionally, leaving the blocked set and the round
counter untouched; hence a mid-flight round gains the joiner as a pending
obligation and will not close until the joiner also calls sync — the
joiner participates in the current round immediately, not from the next
round boundary. -/
theorem C5_add_joins_current_round (s : Synchronizer) (p : Nat) :
    (s.add p).synchronizees = insert p s.synchronizees ∧
    (s.add p).in_sync = insert p s.in_sync ∧
    (s.add p).blocked = s.blocked ∧
    (s.add p).rounds = s.rounds :=
  ⟨rfl, rfl, rfl, rfl⟩

/-! ## Helper lemmas about SortableArray indexing -/

lemma pyIndex_isSome_iff (n : Nat) (key : Int) :
    (pyIndex n key).isSome = true ↔ (-(n : Int) ≤ key ∧ key < (n : Int)) := by
  unfold pyIndex
  split_ifs <;> simp <;> omega

lemma pyIndex_eq_some (n : Nat) (key : Int) (k : Nat)
    (h : pyIndex n key = some k) :
    k < n ∧ (k : Int) = (if 0 ≤ key then key else key + (n : Int)) := by
  unfold pyIndex at h
  split_ifs at h with h1 h2
  · obtain ⟨ha, hb⟩ := h1
    have hk := Option.some.inj h
    subst hk
    constructor
    · omega
    · rw [if_pos ha, Int.toNat_of_nonneg ha]
  · obtain ⟨ha, hb⟩ := h2
    have hk := Option.some.inj h
    subst hk
    constructor
    · omega
    · rw [if_neg (by omega), Int.toNat_of_nonneg (by omega)]

/-- C6 as stated is false on the code: the underlying container is a Python
list, so negative keys are valid (they address from the end of the list).
Concretely, on an array of length 1 the access `get(-1)` succeeds — it
returns the last element and increments `read_count` — even though `-1` is
outside `[0, length)`; similarly `set(-1, v)` succeeds. -/
theorem C6_counterexample :
    (SortableArray.init [5]).getitem (-1) =
      some (5, SortableArray.mk [5] 1 0) ∧
    (SortableArray.init [5]).setitem (-1) 7 =
      some (SortableArray.mk [7] 0 1) ∧
    ¬ (0 ≤ (-1 : Int) ∧ (-1 : Int) < 1) := by
  decide

/-- C6 amended: for an instrumented array of length L, `get(i)` succeeds if
and only if `-L ≤ i < L` (a negative `i` addressing position `i + L`, the
Python list convention); on success it returns the element at the resolved
position and increments `read_count` by one, leaving the contents and
`write_count` unchanged; outside that range it raises `IndexError`
(modelled `none`) before touching any state.  `set(i, v)` succeeds under
exactly the same condition, writes `v` at the resolved position and
increments `write_count` by one, leaving `read_count` unchanged, with the
same failure mode. -/
theorem C6_get_set_contract (a : SortableArray) (key : Int) :
    ((a.getitem key).isSome = true ↔
      (-(a.ary.length : Int) ≤ key ∧ key < (a.ary.length : Int))) ∧
    (∀ v, (a.setitem key v).isSome = true ↔
      (-(a.ary.length : Int) ≤ key ∧ key < (a.ary.length : Int))) ∧
    (∀ x a2, a.getitem key = some (x, a2) →
      a2.ary = a.ary ∧ a2.readcount = a.readcount + 1 ∧
      a2.writecount = a.writecount ∧
      ∃ k, k < a.ary.length ∧
        (k : Int) = (if 0 ≤ key then key else key + (a.ary.length : Int)) ∧
        x = a.ary.getD k 0) ∧
    (∀ v a2, a.setitem key v = some a2 →
      a2.readcount = a.readcount ∧ a2.writecount = a.writecount + 1 ∧
      ∃ k, k < a.ary.length ∧
        (k : Int) = (if 0 ≤ key then key else key + (a.ary.length : Int)) ∧
        a2.ary = a.ary.set k v) := by
  refine ⟨?_, ?_, ?_, ?_⟩
  · rw [← pyIndex_isSome_iff]
    unfold SortableArray.getitem
    cases h : pyIndex a.ary.length key <;> simp [h]
  · intro v
    rw [← pyIndex_isSome_iff]
    unfold SortableArray.setitem
    cases h : pyIndex a.ary.length key <;> simp [h]
  · intro x a2 hx
    unfold SortableArray.getitem at hx
    cases h : pyIndex a.ary.length key with
    | none => rw [h] at hx; exact absurd hx (by simp)
    | some k =>
        rw [h] at hx
        obtain ⟨hk1, hk2⟩ := pyIndex_eq_some _ _ _ h
        have hx2 := Option.some.inj hx
        have hxv : x = a.ary.getD k 0 := by
          have := congrArg Prod.fst hx2
          simpa using this.symm
        have hxa : a2 = { a with readcount := a.readcount + 1 } := by
          have := congrArg Prod.snd hx2
          simpa using this.symm
        subst hxa
        exact ⟨rfl, rfl, rfl, k, hk1, hk2, hxv⟩
  · intro v a2 hx
    unfold SortableArray.setitem at hx
    cases h : pyIndex a.ary.length key with
    | none => rw [h] at hx; exact absurd hx (by simp)
    | some k =>
        rw [h] at hx
        obtain ⟨hk1, hk2⟩ := pyIndex_eq_some _ _ _ h
        have hxa := (Option.some.inj hx).symm
        subst hxa
        exact ⟨rfl, rfl, k, hk1, hk2, rfl⟩

/-- Witness for C6 at a concrete input: on the length-1 array, the key -1
resolves to position 0, the read succeeds and bumps only read_count. -/
theorem C6_get_set_contract_witness :
    ((SortableArray.init [5]).getitem (-1)).isSome = true ∧
    (SortableArray.mk [5] 1 0).ary = (SortableArray.init [5]).ary ∧
    (SortableArray.mk [5] 1 0).readcount =
      (SortableArray.init [5]).readcount + 1 :=
  ⟨((C6_get_set_contract (SortableArray.init [5]) (-1)).1).mpr (by decide),
   (((C6_get_set_contract (SortableArray.init [5]) (-1)).2.2.1) 5
      (SortableArray.mk [5] 1 0) (by decide)).1,
   (((C6_get_set_contract (SortableArray.init [5]) (-1)).2.2.1) 5
      (SortableArray.mk [5] 1 0) (by decide)).2.1⟩

/-! ## Helper lemma for the access counters -/

lemma SortableArray.runOps_counts :
    ∀ (ops : List ArrayOp) (a a2 : SortableArray),
    a.runOps ops = some a2 →
    a2.readcount = a.readcount + countGets ops ∧
    a2.writecount = a.writecount + countSets ops
  | [], a, a2, h => by
      have : a = a2 := by simpa [SortableArray.runOps] using h
      subst this
      simp [countGets, countSets]
  | ArrayOp.get k :: rest, a, a2, h => by
      simp only [SortableArray.runOps, SortableArray.applyOp,
        SortableArray.getitem] at h
      cases hp : pyIndex a.ary.length k with
      | none => rw [hp] at h; exact absurd h (by simp)
      | some j =>
          rw [hp] at h
          simp only [Option.map_some, Option.bind_some] at h
          obtain ⟨h1, h2⟩ := SortableArray.runOps_counts rest _ a2 h
          constructor
          · rw [h1]; simp [countGets]; omega
          · rw [h2]; simp [countSets]
  | ArrayOp.set k v :: rest, a, a2, h => by
      simp only [SortableArray.runOps, SortableArray.applyOp,
        SortableArray.setitem] at h
      cases hp : pyIndex a.ary.length k with
      | none => rw [hp] at h; exact absurd h (by simp)
      | some j =>
          rw [hp] at h
          simp only [Option.bind_some] at h
          obtain ⟨h1, h2⟩ := SortableArray.runOps_counts rest _ a2 h
          constructor
          · rw [h1]; simp [countGets]
          · rw [h2]; simp [countSets]; omega
  | ArrayOp.length :: rest, a, a2, h => by
      simp only [SortableArray.runOps, SortableArray.applyOp,
        Option.bind_some] at h
      obtain ⟨h1, h2⟩ := SortableArray.runOps_counts rest _ a2 h
      constructor
      · rw [h1]; simp [countGets]
      · rw [h2]; simp [countSets]

/-- C7: for every sequence of successful get and set operations performed
on an instrumented array since its construction, read_count equals exactly
the number of get calls issued and write_count equals exactly the number
of set calls issued; length() increments neither counter. -/
theorem C7_counters_count_accesses (l : List Int) (ops : List ArrayOp)
    (a2 : SortableArray) (h : (SortableArray.init l).runOps ops = some a2) :
    a2.readcount = countGets ops ∧ a2.writecount = countSets ops := by
  have := SortableArray.runOps_counts ops (SortableArray.init l) a2 h
  simpa [SortableArray.init] using this

/-- Witness for C7 at a concrete input: one get, one set and one length
call on a one-element array leave the counters at exactly 1 and 1. -/
theorem C7_counters_count_accesses_witness :
    (SortableArray.mk [5] 1 1).readcount =
      countGets [ArrayOp.get 0, ArrayOp.set 0 5, ArrayOp.length] ∧
    (SortableArray.mk [5] 1 1).writecount =
      countSets [ArrayOp.get 0, ArrayOp.set 0 5, ArrayOp.length] :=
  C7_counters_count_accesses [1] [ArrayOp.get 0, ArrayOp.set 0 5, ArrayOp.length]
    (SortableArray.mk [5] 1 1) (by decide)

/-! ## Sort step streams (visisort/sorters.py)

Each sort algorithm class is embedded as a function from the input array
(`self.array`, duplicated by `MicroThreadedSortAlgorithm.__init__`) to the
list of `SortOperation` values its generator yields, together with the
final contents of the array.  The bubble sort variants carry the `lo` and
`hi` keyword parameters explicitly; the remaining algorithms are invoked
the way the application invokes them: no keyword arguments, so `lo = 0`
and `hi = len(self.array) - 1`.  Loop control variables are Python ints
and are kept as `Int`.  A `while` loop whose guard compares two control
variables that move by exactly one per iteration runs an exactly
computable number of iterations; each such loop is embedded by structural
recursion on that iteration count (passed by the caller as the `toNat` of
the corresponding difference of bounds), so the embedding is
kernel-executable.  Loops that can exit early via `break` keep the break
test in the body; loops with no governing bound at all (the quick sort
partition) take explicit fuel and return `none` when it runs out.  All
array subscripts produced by these algorithms stay in `[0, len)` whenever
`0 ≤ lo` and `hi < len` (so in particular under the default bounds), and
plain positional access is used at the subscript sites. -/

/-- A step yielded by a sort generator: `ReadOperation`, `WriteOperation`
(with the array contents at the moment of the yield) or `SortComplete`. -/
inductive SortOperation where
  | read (index : Int)
  | write (index : Int) (value : Int) (array : List Int)
  | complete (array : List Int)
deriving DecidableEq

/-- Array subscript read `self.array[i]` (all uses are in `[0, len)`). -/
def aget (a : List Int) (i : Int) : Int := a.getD i.toNat 0

/-- Array subscript write `self.array[i] = v` (all uses are in `[0, len)`). -/
def aset (a : List Int) (i : Int) (v : Int) : List Int := a.set i.toNat v

/-- Is the step a `WriteOperation`? -/
def SortOperation.isWrite : SortOperation → Bool
  | SortOperation.write _ _ _ => true
  | _ => false

/-- Is the step a `ReadOperation`? -/
def SortOperation.isRead : SortOperation → Bool
  | SortOperation.read _ => true
  | _ => false

/-- Is the step a `SortComplete`? -/
def SortOperation.isComplete : SortOperation → Bool
  | SortOperation.complete _ => true
  | _ => false

/-- Number of `ReadOperation` steps in a stream. -/
def countReads (ops : List SortOperation) : Nat :=
  (ops.filter SortOperation.isRead).length

/-- Number of `WriteOperation` steps in a stream. -/
def countWrites (ops : List SortOperation) : Nat :=
  (ops.filter SortOperation.isWrite).length

/-- Inner loop of `BubbleSortAlgorithm.sort`: `while idx <= top`, first
increment `idx`, read the pair at `idx - 1` and `idx` (each read yields a
`ReadOperation`), and swap with two yielded `WriteOperation`s when out of
order.  `idx` rises by one per iteration and `top` is fixed, so the loop
runs exactly `(top + 1 - idx).toNat` iterations — the `Nat` argument.
Returns the yielded steps and the array after the loop. -/
def bubbleInner : Nat → List Int → Int → List SortOperation × List Int
  | 0, a, _ => ([], a)
  | n + 1, a, idx =>
      let idx2 := idx + 1
      let a1 := aget a (idx2 - 1)
      let a2 := aget a idx2
      if a1 > a2 then
        let b1 := aset a (idx2 - 1) a2
        let b2 := aset b1 idx2 a1
        let rest := bubbleInner n b2 idx2
        (SortOperation.read (idx2 - 1) :: SortOperation.read idx2 ::
          SortOperation.write (idx2 - 1) a2 b1 ::
          SortOperation.write idx2 a1 b2 :: rest.1, rest.2)
      else
        let rest := bubbleInner n a idx2
        (SortOperation.read (idx2 - 1) :: SortOperation.read idx2 :: rest.1,
          rest.2)

/-- Outer loop of `BubbleSortAlgorithm.sort`: `while top > lo`, one inner
pass starting at `idx = lo`, then `top -= 1`.  `top` falls by one per
iteration and `lo` is fixed, so the loop runs exactly `(top - lo).toNat`
iterations — the `Nat` argument. -/
def bubbleOuter : Nat → List Int → Int → Int → List SortOperation × List Int
  | 0, a, _, _ => ([], a)
  | k + 1, a, lo, top =>
      let pass := bubbleInner (top + 1 - lo).toNat a lo
      let rest := bubbleOuter k pass.2 lo (top - 1)
      (pass.1 ++ rest.1, rest.2)

/-- `BubbleSortAlgorithm.sort` over the inclusive bounds `[lo, hi]` (the
`lo` and `hi` keyword parameters of the Python method); `top` starts at
`hi - 1`, and the generator yields `SortComplete` with the final array
after the outer loop. -/
def BubbleSortAlgorithm.sort (array : List Int) (lo hi : Int) :
    List SortOperation :=
  let top := hi - 1
  let run := bubbleOuter (top - lo).toNat array lo top
  run.1 ++ [SortOperation.complete run.2]

/-- `BubbleSortAlgorithm.sort` with the default bounds `lo = 0`,
`hi = len(array) - 1` (how the application invokes it). -/
def BubbleSortAlgorithm.sortSteps (array : List Int) : List SortOperation :=
  BubbleSortAlgorithm.sort array 0 ((array.length : Int) - 1)

/-- Inner loop of `ReadOptimizedBubbleSortAlgorithm.sort`: like the plain
bubble inner loop (same guard, same iteration count), but the left value
`a1` is carried in a variable, only `self.array[idx]` is read per
iteration, and on the no-swap branch `a1` becomes `a2`. -/
def roInner : Nat → List Int → Int → Int → List SortOperation × List Int
  | 0, a, _, _ => ([], a)
  | n + 1, a, a1, idx =>
      let idx2 := idx + 1
      let a2 := aget a idx2
      if a1 > a2 then
        let b1 := aset a (idx2 - 1) a2
        let b2 := aset b1 idx2 a1
        let rest := roInner n b2 a1 idx2
        (SortOperation.read idx2 ::
          SortOperation.write (idx2 - 1) a2 b1 ::
          SortOperation.write idx2 a1 b2 :: rest.1, rest.2)
      else
        let rest := roInner n a a2 idx2
        (SortOperation.read idx2 :: rest.1, rest.2)

/-- Outer loop of `ReadOptimizedBubbleSortAlgorithm.sort`: each pass first
reads `a1 = self.array[lo]` (one yielded `ReadOperation`), then runs the
read-optimized inner loop; same pass count as the plain bubble sort. -/
def roOuter : Nat → List Int → Int → Int → List SortOperation × List Int
  | 0, a, _, _ => ([], a)
  | k + 1, a, lo, top =>
      let a1 := aget a lo
      let pass := roInner (top + 1 - lo).toNat a a1 lo
      let rest := roOuter k pass.2 lo (top - 1)
      (SortOperation.read lo :: pass.1 ++ rest.1, rest.2)

/-- `ReadOptimizedBubbleSortAlgorithm.sort` over the inclusive bounds
`[lo, hi]`. -/
def ReadOptimizedBubbleSortAlgorithm.sort (array : List Int) (lo hi : Int) :
    List SortOperation :=
  let top := hi - 1
  let run := roOuter (top - lo).toNat array lo top
  run.1 ++ [SortOperation.complete run.2]

/-- `ReadOptimizedBubbleSortAlgorithm.sort` with the default bounds. -/
def ReadOptimizedBubbleSortAlgorithm.sortSteps (array : List Int) :
    List SortOperation :=
  ReadOptimizedBubbleSortAlgorithm.sort array 0 ((array.length : Int) - 1)

/-- Inner loop of `InsertionSortAlgorithm.sort` (with the default
`stride = 1`): `while ins_pt >= lo`, read `a2 = self.array[ins_pt]`; break
when `a2 <= a1`, otherwise shift `a2` one slot right and decrement
`ins_pt`.  Without the break the loop runs `(ins_pt + 1 - lo).toNat`
iterations — the `Nat` argument, which reaches 0 exactly when the guard
fails.  Note the source never writes `a1` back after the loop. -/
def insInner : Nat → List Int → Int → Int → List SortOperation × List Int
  | 0, a, _, _ => ([], a)
  | n + 1, a, a1, ins_pt =>
      let a2 := aget a ins_pt
      if a2 ≤ a1 then ([SortOperation.read ins_pt], a)
      else
        let b := aset a (ins_pt + 1) a2
        let rest := insInner n b a1 (ins_pt - 1)
        (SortOperation.read ins_pt ::
          SortOperation.write (ins_pt + 1) a2 b :: rest.1, rest.2)

/-- Outer loop of `InsertionSortAlgorithm.sort` (default `stride = 1`):
`while idx <= hi`, read `a1 = self.array[idx]`, run the inner loop from
`ins_pt = idx - 1`, then `idx += 1`; exactly `(hi + 1 - idx).toNat`
iterations — the `Nat` argument. -/
def insOuter : Nat → List Int → Int → Int → List SortOperation × List Int
  | 0, a, _, _ => ([], a)
  | n + 1, a, idx, lo =>
      let a1 := aget a idx
      let pass := insInner (idx - lo).toNat a a1 (idx - 1)
      let rest := insOuter n pass.2 (idx + 1) lo
      (SortOperation.read idx :: pass.1 ++ rest.1, rest.2)

/-- `InsertionSortAlgorithm.sort` with the default bounds and stride
(`idx` starts at `lo + 1`). -/
def InsertionSortAlgorithm.sortSteps (array : List Int) :
    List SortOperation :=
  let lo : Int := 0
  let hi : Int := (array.length : Int) - 1
  let run := insOuter (hi - lo).toNat array (lo + 1) lo
  run.1 ++ [SortOperation.complete run.2]

/-- First inner loop of `QuickSortAlgorithm.sort`'s partition:
`while lo_idx < hi_idx`, read `a1 = self.array[lo_idx]` (yielding a
`ReadOperation`), break when `a1 >= p`, else `lo_idx += 1`.  Without the
break the loop runs `(hi_idx - lo_idx).toNat` iterations — the `Nat`
argument.  The carried `a1` parameter is the Python variable's previous
value (returned unchanged when the loop body never runs).  Returns
(steps, new lo_idx, a1). -/
def qsScanLo : Nat → List Int → Int → Int → Int → List SortOperation × Int × Int
  | 0, _, _, lo_idx, a1 => ([], lo_idx, a1)
  | n + 1, a, p, lo_idx, a1 =>
      let a1' := aget a lo_idx
      if a1' ≥ p then ([SortOperation.read lo_idx], lo_idx, a1')
      else
        let rest := qsScanLo n a p (lo_idx + 1) a1
        (SortOperation.read lo_idx :: rest.1, rest.2)

/-- Second inner loop of `QuickSortAlgorithm.sort`'s partition:
`while lo_idx < hi_idx`, read `a2 = self.array[hi_idx]` (yielding a
`ReadOperation`), break when `a2 <= p`.  The source never decrements
`hi_idx`, so when the element at `hi_idx` exceeds the pivot this loop
re-reads it forever; the embedding charges one unit of fuel per iteration
and returns `none` when fuel runs out.  Returns (steps, a2). -/
def qsScanHi (fuel : Nat) (a : List Int) (p lo_idx hi_idx a2 : Int) :
    Option (List SortOperation × Int) :=
  if lo_idx < hi_idx then
    match fuel with
    | 0 => none
    | fuel + 1 =>
      let a2' := aget a hi_idx
      if a2' ≤ p then some ([SortOperation.read hi_idx], a2')
      else
        (qsScanHi fuel a p lo_idx hi_idx a2').map
          (fun rest => (SortOperation.read hi_idx :: rest.1, rest.2))
  else some ([], a2)

/-- Outer partition loop of `QuickSortAlgorithm.sort`:
`while lo_idx < hi_idx`, run both scans, and when `lo_idx < hi_idx` still
holds, swap `a1` and `a2` with two yielded `WriteOperation`s — without
advancing either index — and iterate.  One unit of fuel per outer
iteration; `none` when fuel runs out (the loop need not make progress). -/
def qsPartition (fuel : Nat) (a : List Int) (p lo_idx hi_idx a1 a2 : Int) :
    Option (List SortOperation × List Int) :=
  if lo_idx < hi_idx then
    match fuel with
    | 0 => none
    | fuel + 1 =>
      let s1 := qsScanLo (hi_idx - lo_idx).toNat a p lo_idx a1
      match qsScanHi fuel a p s1.2.1 hi_idx a2 with
      | none => none
      | some s2 =>
        let lo_idx' := s1.2.1
        let a1' := s1.2.2
        let a2' := s2.2
        if lo_idx' < hi_idx then
          let b1 := aset a lo_idx' a2'
          let b2 := aset b1 hi_idx a1'
          (qsPartition fuel b2 p lo_idx' hi_idx a1' a2').map
            (fun rest =>
              (s1.1 ++ s2.1 ++
                 (SortOperation.write lo_idx' a2' b1 ::
                  SortOperation.write hi_idx a1' b2 :: rest.1), rest.2))
        else some (s1.1 ++ s2.1, a)
  else some ([], a)

/-- `QuickSortAlgorithm.sort` invoked with no keyword arguments
(`lo = 0`, `hi = len(array) - 1`, `sub_sort = False`).  On the empty array,
`p = self.array[lo]` raises `IndexError` before any yield (`none`).  The
two recursive `self.sort(...)` calls in the source only construct
generator objects and never iterate them, so they execute no code and
yield nothing; the only steps are the pivot read, the partition steps,
and (because `sub_sort` is false) the single final `SortComplete`. -/
def QuickSortAlgorithm.sortSteps (fuel : Nat) (array : List Int) :
    Option (List SortOperation) :=
  if array.length = 0 then none
  else
    let lo : Int := 0
    let hi : Int := (array.length : Int) - 1
    let p := aget array lo
    (qsPartition fuel array p lo hi 0 0).map
      (fun run => SortOperation.read lo :: run.1 ++
        [SortOperation.complete run.2])

/-- C3: for every one of the sorting algorithms and every finite input
sequence, the run ends in a `Complete` step whose snapshot is a permutation
of the input in non-decreasing order.  THE CODE VIOLATES THIS.
`BubbleSortAlgorithm.sort` starts its outer loop at `top = hi - 1` with
guard `top > lo`, one pass short of a full bubble sort, so on the input
[2, 1] no pass runs at all and the final snapshot is the unsorted [2, 1].
`InsertionSortAlgorithm.sort` shifts larger elements right but never
writes the held value `a1` back after its inner loop, so on [2, 1] the
final snapshot is [2, 2] — not even a permutation of the input. -/
theorem C3_complete_snapshot_not_sorted :
    BubbleSortAlgorithm.sortSteps [2, 1] = [SortOperation.complete [2, 1]] ∧
    ¬ List.Pairwise (fun x y => x ≤ y) ([2, 1] : List Int) ∧
    (InsertionSortAlgorithm.sortSteps [2, 1]).getLast? =
      some (SortOperation.complete [2, 2]) ∧
    ¬ ([2, 2] : List Int).Perm [2, 1] := by
  decide

/-- C9: on the input [5,3,4,1,2] the bubble sort step stream (finite by
construction) ends with `Complete` carrying [1,2,3,4,5], and at least 4
`WriteOperation` steps are emitted (in fact 16: eight swaps of two writes
each). -/
theorem C9_bubble_scenario :
    (BubbleSortAlgorithm.sortSteps [5, 3, 4, 1, 2]).getLast? =
      some (SortOperation.complete [1, 2, 3, 4, 5]) ∧
    4 ≤ countWrites (BubbleSortAlgorithm.sortSteps [5, 3, 4, 1, 2]) := by
  decide

/-- On the array [1, 2] with pivot 1, the second partition scan reads
index 1 (value 2 > pivot) forever: no fuel suffices. -/
lemma qsScanHi_diverges_on_sorted_pair :
    ∀ (fuel : Nat) (a2 : Int), qsScanHi fuel [1, 2] 1 0 1 a2 = none := by
  intro fuel
  induction fuel with
  | zero => intro a2; rfl
  | succ n ih =>
      intro a2
      show qsScanHi (n + 1) [1, 2] 1 0 1 a2 = none
      unfold qsScanHi
      rw [if_pos (by norm_num)]
      have : ¬ (aget [1, 2] 1 ≤ 1) := by decide
      simp only [if_neg this, ih]
      rfl

/-- C4: for every finite input the quick sort step stream is finite with
exactly one `Complete`, positioned last.  THE CODE VIOLATES THIS: the
second partition scan never decrements `hi_idx`, so already on the
two-element input [1, 2] (pivot 1, element 2 at `hi_idx`) the generator
yields `ReadOperation(1)` forever and never reaches `SortComplete` — the
embedding returns `none` for every amount of fuel. -/
theorem C4_quick_sort_diverges :
    ∀ fuel : Nat, QuickSortAlgorithm.sortSteps fuel [1, 2] = none := by
  intro fuel
  unfold QuickSortAlgorithm.sortSteps
  rw [if_neg (by decide)]
  have hpart : qsPartition fuel [1, 2] (aget [1, 2] 0) 0
      (((2 : Nat) : Int) - 1) 0 0 = none := by
    have hp : aget [1, 2] 0 = 1 := by decide
    have hhi : ((2 : Nat) : Int) - 1 = 1 := by norm_num
    rw [hp, hhi]
    cases fuel with
    | zero => rfl
    | succ n =>
        show qsPartition (n + 1) [1, 2] 1 0 1 0 0 = none
        unfold qsPartition
        rw [if_pos (by norm_num)]
        have hs1 : qsScanLo ((1 : Int) - 0).toNat [1, 2] 1 0 0 =
            ([SortOperation.read 0], 0, 1) := by decide
        rw [hs1]
        simp only [qsScanHi_diverges_on_sorted_pair]
  simp only [List.length_cons, List.length_nil] at hpart ⊢
  rw [hpart]
  rfl

/-! ## Read-optimized bubble sort refines plain bubble sort (C8) -/

@[simp] lemma countReads_nil : countReads [] = 0 := rfl

@[simp] lemma countReads_cons_read (i : Int) (l : List SortOperation) :
    countReads (SortOperation.read i :: l) = countReads l + 1 := by
  simp [countReads, List.filter_cons, SortOperation.isRead]

@[simp] lemma countReads_cons_write (i v : Int) (s : List Int)
    (l : List SortOperation) :
    countReads (SortOperation.write i v s :: l) = countReads l := by
  simp [countReads, List.filter_cons, SortOperation.isRead]

@[simp] lemma countReads_cons_complete (s : List Int) (l : List SortOperation) :
    countReads (SortOperation.complete s :: l) = countReads l := by
  simp [countReads, List.filter_cons, SortOperation.isRead]

@[simp] lemma countReads_append (l1 l2 : List SortOperation) :
    countReads (l1 ++ l2) = countReads l1 + countReads l2 := by
  simp [countReads, List.filter_append]

@[simp] lemma filterWrite_nil :
    List.filter SortOperation.isWrite ([] : List SortOperation) = [] := rfl

@[simp] lemma filterWrite_cons_read (i : Int) (l : List SortOperation) :
    (SortOperation.read i :: l).filter SortOperation.isWrite =
      l.filter SortOperation.isWrite := by
  simp [List.filter_cons, SortOperation.isWrite]

@[simp] lemma filterWrite_cons_write (i v : Int) (s : List Int)
    (l : List SortOperation) :
    (SortOperation.write i v s :: l).filter SortOperation.isWrite =
      SortOperation.write i v s :: l.filter SortOperation.isWrite := by
  simp [List.filter_cons, SortOperation.isWrite]

@[simp] lemma filterWrite_cons_complete (s : List Int) (l : List SortOperation) :
    (SortOperation.complete s :: l).filter SortOperation.isWrite =
      l.filter SortOperation.isWrite := by
  simp [List.filter_cons, SortOperation.isWrite]

lemma length_aset (l : List Int) (i v : Int) : (aset l i v).length = l.length := by
  simp [aset]

lemma aget_aset_self (l : List Int) (i v : Int) (h : i.toNat < l.length) :
    aget (aset l i v) i = v := by
  unfold aget aset
  rw [List.getD_eq_getElem _ _ (by simpa using h)]
  exact List.getElem_set_self _

lemma bubbleInner_length (n : Nat) : ∀ (a : List Int) (idx : Int),
    (bubbleInner n a idx).2.length = a.length := by
  induction n with
  | zero => intro a idx; rfl
  | succ n ih =>
      intro a idx
      simp only [bubbleInner]
      by_cases hc : aget a (idx + 1 - 1) > aget a (idx + 1)
      · simp only [if_pos hc, ih, length_aset]
      · simp only [if_neg hc, ih]

lemma ro_bubble_inner (n : Nat) :
    ∀ (a : List Int) (idx : Int), 0 ≤ idx → idx.toNat + n < a.length →
    (roInner n a (aget a idx) idx).1.filter SortOperation.isWrite =
      (bubbleInner n a idx).1.filter SortOperation.isWrite ∧
    (roInner n a (aget a idx) idx).2 = (bubbleInner n a idx).2 ∧
    countReads (roInner n a (aget a idx) idx).1 = n ∧
    countReads (bubbleInner n a idx).1 = 2 * n := by
  induction n with
  | zero =>
      intro a idx _ _
      exact ⟨rfl, rfl, rfl, rfl⟩
  | succ n ih =>
      intro a idx hge hlt
      have hidx : idx + 1 - 1 = idx := by ring
      simp only [roInner, bubbleInner, hidx]
      by_cases hc : aget a idx > aget a (idx + 1)
      · simp only [if_pos hc]
        have hlen1 : (aset a idx (aget a (idx + 1))).length = a.length :=
          length_aset ..
        have hlen2 :
            (aset (aset a idx (aget a (idx + 1))) (idx + 1) (aget a idx)).length
              = a.length := by rw [length_aset, hlen1]
        have hcarry :
            aget (aset (aset a idx (aget a (idx + 1))) (idx + 1) (aget a idx))
              (idx + 1) = aget a idx := by
          apply aget_aset_self
          rw [hlen1]
          omega
        obtain ⟨hw, hf, hr, hb⟩ := ih
          (aset (aset a idx (aget a (idx + 1))) (idx + 1) (aget a idx))
          (idx + 1) (by omega) (by rw [hlen2]; omega)
        rw [hcarry] at hw hf hr
        refine ⟨?_, hf, ?_, ?_⟩
        · simp [hw]
        · simp [hr]
        · simp [hb]; ring
      · simp only [if_neg hc]
        obtain ⟨hw, hf, hr, hb⟩ := ih a (idx + 1) (by omega) (by omega)
        refine ⟨?_, hf, ?_, ?_⟩
        · simp [hw]
        · simp [hr]
        · simp [hb]; ring

lemma ro_bubble_outer (k : Nat) :
    ∀ (a : List Int) (lo top : Int), 0 ≤ lo → k = (top - lo).toNat →
    top + 1 < (a.length : Int) →
    (roOuter k a lo top).1.filter SortOperation.isWrite =
      (bubbleOuter k a lo top).1.filter SortOperation.isWrite ∧
    (roOuter k a lo top).2 = (bubbleOuter k a lo top).2 ∧
    countReads (roOuter k a lo top).1 ≤ countReads (bubbleOuter k a lo top).1 := by
  induction k with
  | zero =>
      intro a lo top _ _ _
      exact ⟨rfl, rfl, Nat.le_refl _⟩
  | succ k ih =>
      intro a lo top hlo hk hlen
      have htoplo : lo < top := by omega
      have hn : lo.toNat + (top + 1 - lo).toNat < a.length := by omega
      obtain ⟨hw, hf, hr, hb⟩ := ro_bubble_inner (top + 1 - lo).toNat a lo hlo hn
      have hpasslen : (bubbleInner (top + 1 - lo).toNat a lo).2.length =
          a.length := bubbleInner_length ..
      obtain ⟨hw2, hf2, hr2⟩ := ih (bubbleInner (top + 1 - lo).toNat a lo).2
        lo (top - 1) hlo (by omega) (by rw [hpasslen]; omega)
      simp only [roOuter, bubbleOuter]
      rw [hf]
      refine ⟨?_, hf2, ?_⟩
      · simp [List.filter_append, hw, hw2]
      · simp only [countReads_append, countReads_cons_read, hr, hb]
        have hge1 : 1 ≤ (top + 1 - lo).toNat := by omega
        omega

/-- C8: for every input array and every bounds pair `lo`, `hi` addressing
a sub-range of the array (`0 <= lo` and `hi < len`, the range on which the
generators' subscripts stay in bounds — the default invocation `lo = 0`,
`hi = len - 1` included), the read-optimized bubble sort yields exactly
the same `WriteOperation` steps (same indices, values, order) as the
plain bubble sort, the same final `Complete` snapshot, and at most as
many `ReadOperation` steps. -/
theorem C8_read_optimized_refines_bubble (array : List Int) (lo hi : Int)
    (hlo : 0 ≤ lo) (hhi : hi < (array.length : Int)) :
    (ReadOptimizedBubbleSortAlgorithm.sort array lo hi).filter
        SortOperation.isWrite =
      (BubbleSortAlgorithm.sort array lo hi).filter SortOperation.isWrite ∧
    (ReadOptimizedBubbleSortAlgorithm.sort array lo hi).getLast? =
      (BubbleSortAlgorithm.sort array lo hi).getLast? ∧
    countReads (ReadOptimizedBubbleSortAlgorithm.sort array lo hi) ≤
      countReads (BubbleSortAlgorithm.sort array lo hi) := by
  unfold ReadOptimizedBubbleSortAlgorithm.sort BubbleSortAlgorithm.sort
  dsimp only
  obtain ⟨hw, hf, hr⟩ := ro_bubble_outer
    (hi - 1 - lo).toNat array lo (hi - 1) hlo rfl (by omega)
  refine ⟨?_, ?_, ?_⟩
  · simp [List.filter_append, hw, hf]
  · rw [List.getLast?_concat, List.getLast?_concat, hf]
  · simp only [countReads_append, countReads_cons_complete, countReads_nil]
    omega

/-- Witness for C8 at a concrete input with non-default bounds: the
sub-range [1, 3] of the array [9, 3, 2, 1, 5]. -/
theorem C8_read_optimized_refines_bubble_witness :
    (ReadOptimizedBubbleSortAlgorithm.sort [9, 3, 2, 1, 5] 1 3).filter
        SortOperation.isWrite =
      (BubbleSortAlgorithm.sort [9, 3, 2, 1, 5] 1 3).filter
        SortOperation.isWrite ∧
    (ReadOptimizedBubbleSortAlgorithm.sort [9, 3, 2, 1, 5] 1 3).getLast? =
      (BubbleSortAlgorithm.sort [9, 3, 2, 1, 5] 1 3).getLast? ∧
    countReads (ReadOptimizedBubbleSortAlgorithm.sort [9, 3, 2, 1, 5] 1 3) ≤
      countReads (BubbleSortAlgorithm.sort [9, 3, 2, 1, 5] 1 3) :=
  C8_read_optimized_refines_bubble [9, 3, 2, 1, 5] 1 3 (by decide) (by decide)

/-! ## Radix sort (binary_radixsort_lsb in visisort/main.py)

The function sorts a Python list in place.  It is embedded over `List Nat`
(the application feeds it a shuffled permutation of `range(n)`;
`>> bit & 1` below is the Python expression for non-negative ints).  The
`while` loops are embedded like the sorter loops: counted loops by
structural recursion on the exact iteration count, and the two
pointer-chasing loops (the bucket walk of phase 2 and the cycle walk of
phase 3, whose termination depends on the shape of the `next` links) with
explicit fuel, returning `none` on exhaustion. -/

/-- The `while max_bit < arraysize: max_bit *= 2; bits += 1` loop.  Since
`max_bit` starts at 1 and doubles, at most `arraysize` iterations can run;
the `Nat` fuel argument (instantiated with `arraysize`) is enough and the
guard is kept in the body. -/
def bitsLoop : Nat → Nat → Nat → Nat → Nat
  | 0, _, bits, _ => bits
  | fuel + 1, max_bit, bits, arraysize =>
      if max_bit < arraysize then bitsLoop fuel (max_bit * 2) (bits + 1) arraysize
      else bits

/-- Number of bit passes: enough bits to cover the array length. -/
def bitsFor (arraysize : Nat) : Nat := bitsLoop arraysize 1 0 arraysize

/-- Phase 1 of a pass, `while i > 0: i -= 1; b = (a[i] >> bit) & 1;
next[i], first[b] = first[b], i` — build the two index-linked bucket
lists, iterating `i` from `arraysize` down to `0` (the `Nat` argument is
`i`).  Returns (next, first[0], first[1]). -/
def buildLoop (a : List Nat) (bit : Nat) :
    Nat → List (Option Nat) → Option Nat → Option Nat →
    List (Option Nat) × Option Nat × Option Nat
  | 0, next, f0, f1 => (next, f0, f1)
  | i + 1, next, f0, f1 =>
      let b := (a.getD i 0 >>> bit) &&& 1
      if b = 1 then buildLoop a bit i (next.set i f1) f0 (some i)
      else buildLoop a bit i (next.set i f0) (some i) f1

/-- Phase 2 walk for one bucket, `j = first[b]; while j is not None:
next[j], j = i, next[j]; i += 1` — assign consecutive destination
positions along one bucket list.  Fuel per step (instantiated with
`arraysize`, an upper bound on the bucket length). -/
def assignLoop : Nat → List (Option Nat) → Option Nat → Nat →
    Option (List (Option Nat) × Nat)
  | _, next, none, i => some (next, i)
  | 0, _, some _, _ => none
  | fuel + 1, next, some j, i =>
      assignLoop fuel (next.set j (some i)) (next.getD j none) (i + 1)

/-- Phase 3 cycle walk, `while j != i: a[j], next[j], jval, j =
jval, j, a[j], next[j]` followed by the trailing `a[j], next[j] = jval, j`
once `j == i`.  Fuel per step (instantiated with `arraysize`, an upper
bound on the cycle length). -/
def cycleWalk : Nat → List Nat → List Nat → Nat → Nat → Nat →
    Option (List Nat × List Nat)
  | fuel, a, next, i, jval, j =>
      if j ≠ i then
        match fuel with
        | 0 => none
        | fuel + 1 =>
            cycleWalk fuel (a.set j jval) (next.set j j) i
              (a.getD j 0) (next.getD j 0)
      else some (a.set j jval, next.set j j)

/-- Phase 3 outer loop, `while i > 0: i -= 1; j = next[i]; if j != i:
jval = a[i]; <cycle walk>` — apply the destination permutation by
following cycles, iterating `i` from `arraysize` down to `0` (the `Nat`
argument is `i`). -/
def permLoop : Nat → List Nat → List Nat → Option (List Nat × List Nat)
  | 0, a, next => some (a, next)
  | i + 1, a, next =>
      let j := next.getD i 0
      if j ≠ i then
        match cycleWalk a.length a next i (a.getD i 0) j with
        | none => none
        | some r => permLoop i r.1 r.2
      else permLoop i a next

/-- One `for bit in range(bits)` pass: build the bucket lists, assign
destinations along bucket 0 then bucket 1 (`for b in (0, 1)`, with the
position counter continuing from one bucket to the next), then apply the
permutation.  After phase 2 every entry of `next` has been assigned a
destination (each index sits on exactly one bucket list), so reading the
entries with default 0 for phase 3 is exact. -/
def radixPass (a : List Nat) (bit : Nat) : Option (List Nat) :=
  let arraysize := a.length
  let built := buildLoop a bit arraysize (List.replicate arraysize none) none none
  match assignLoop arraysize built.1 built.2.1 0 with
  | none => none
  | some r0 =>
      match assignLoop arraysize r0.1 built.2.2 r0.2 with
      | none => none
      | some r1 =>
          let dest := r1.1.map (fun o => o.getD 0)
          (permLoop arraysize a dest).map (fun r => r.1)

/-- `binary_radixsort_lsb`: LSB-first base-2 radix sort; one pass per bit
in `range(bits)`. -/
def binary_radixsort_lsb (a : List Nat) : Option (List Nat) :=
  (List.range (bitsFor a.length)).foldl
    (fun acc bit => acc.bind (fun l => radixPass l bit)) (some a)

/-! ## Correctness of the radix sort (C10) -/

lemma shiftRight_and_one (x bit : Nat) : (x >>> bit) &&& 1 = x / 2 ^ bit % 2 := by
  rw [Nat.shiftRight_eq_div_pow, Nat.and_one_is_mod]

lemma bitsLoop_ge : ∀ (fuel max_bit bits arraysize : Nat),
    1 ≤ max_bit → max_bit = 2 ^ bits → arraysize ≤ max_bit + fuel →
    arraysize ≤ 2 ^ (bitsLoop fuel max_bit bits arraysize) := by
  intro fuel
  induction fuel with
  | zero =>
      intro mb bits n _ h2 h3
      simp only [bitsLoop]
      omega
  | succ f ih =>
      intro mb bits n h1 h2 h3
      simp only [bitsLoop]
      by_cases hlt : mb < n
      · rw [if_pos hlt]
        exact ih (mb * 2) (bits + 1) n (by omega)
          (by rw [pow_succ]; omega) (by omega)
      · rw [if_neg hlt]
        omega

lemma bitsFor_ge (n : Nat) : n ≤ 2 ^ bitsFor n :=
  bitsLoop_ge n 1 0 n (Nat.le_refl 1) (by norm_num) (by omega)

lemma getD_set_ne {α : Type} (l : List α) (k j : Nat) (v d : α) (h : j ≠ k) :
    (l.set k v).getD j d = l.getD j d := by
  rw [List.getD_eq_getElem?_getD, List.getD_eq_getElem?_getD,
    List.getElem?_set_ne (Ne.symm h)]

lemma getD_set_self {α : Type} (l : List α) (k : Nat) (v d : α)
    (h : k < l.length) : (l.set k v).getD k d = v := by
  rw [List.getD_eq_getElem?_getD, List.getElem?_set_eq_of_lt v h]
  rfl

/-- The index-linked bucket list headed by `h` inside `next` spells out the
index sequence `L`. -/
def represents (next : List (Option Nat)) : Option Nat → List Nat → Prop
  | h, [] => h = none
  | h, j :: L => h = some j ∧ represents next (next.getD j none) L

lemma represents_set_outside : ∀ (L : List Nat) (next : List (Option Nat))
    (h : Option Nat) (k : Nat) (v : Option Nat), k ∉ L →
    (represents (next.set k v) h L ↔ represents next h L) := by
  intro L
  induction L with
  | nil => intro next h k v _; exact Iff.rfl
  | cons j L ih =>
      intro next h k v hk
      have hjk : j ≠ k := fun e => hk (by simp [e])
      simp only [represents]
      rw [getD_set_ne next k j v none hjk]
      constructor
      · rintro ⟨h1, h2⟩
        exact ⟨h1, (ih next _ k v (fun hm => hk (by simp [hm]))).mp h2⟩
      · rintro ⟨h1, h2⟩
        exact ⟨h1, (ih next _ k v (fun hm => hk (by simp [hm]))).mpr h2⟩

/-- Indices below `n` whose value has bit `bit` equal to `b`, ascending:
the intended contents of bucket list `b` after phase 1. -/
def bucket (a : List Nat) (bit b n : Nat) : List Nat :=
  (List.range n).filter (fun idx => (a.getD idx 0) / 2 ^ bit % 2 = b)

lemma bucket_zero (a : List Nat) (bit b : Nat) : bucket a bit b 0 = [] := rfl

lemma bucket_succ (a : List Nat) (bit b i : Nat) :
    bucket a bit b (i + 1) =
      bucket a bit b i ++
        (if (a.getD i 0) / 2 ^ bit % 2 = b then [i] else []) := by
  unfold bucket
  rw [List.range_succ, List.filter_append]
  congr 1
  simp only [List.filter_cons, List.filter_nil]
  by_cases hb : (a.getD i 0) / 2 ^ bit % 2 = b
  · rw [if_pos (by simpa using hb), if_pos hb]
  · rw [if_neg (by simpa using hb), if_neg hb]

lemma buildLoop_spec (a : List Nat) (bit : Nat) :
    ∀ (i : Nat) (next : List (Option Nat)) (f0 f1 : Option Nat)
      (Z O : List Nat),
    i ≤ next.length →
    represents next f0 Z → represents next f1 O →
    (∀ j ∈ Z, i ≤ j) → (∀ j ∈ O, i ≤ j) →
    (buildLoop a bit i next f0 f1).1.length = next.length ∧
    represents (buildLoop a bit i next f0 f1).1
      (buildLoop a bit i next f0 f1).2.1 (bucket a bit 0 i ++ Z) ∧
    represents (buildLoop a bit i next f0 f1).1
      (buildLoop a bit i next f0 f1).2.2 (bucket a bit 1 i ++ O) := by
  intro i
  induction i with
  | zero =>
      intro next f0 f1 Z O _ hZ hO _ _
      refine ⟨rfl, ?_, ?_⟩
      · simpa [buildLoop] using hZ
      · simpa [buildLoop] using hO
  | succ i ih =>
      intro next f0 f1 Z O hlen hZ hO hZge hOge
      have hilt : i < next.length := by omega
      have hbcases : (a.getD i 0) / 2 ^ bit % 2 = 0 ∨
          (a.getD i 0) / 2 ^ bit % 2 = 1 := by omega
      simp only [buildLoop, shiftRight_and_one]
      rcases hbcases with hb | hb
      · rw [hb, if_neg (by omega)]
        have hZ2 : represents (next.set i f0) (some i) (i :: Z) := by
          refine ⟨rfl, ?_⟩
          rw [getD_set_self next i f0 none hilt]
          exact (represents_set_outside Z next f0 i f0
            (fun hm => by have := hZge i hm; omega)).mpr hZ
        have hO2 : represents (next.set i f0) f1 O :=
          (represents_set_outside O next f1 i f0
            (fun hm => by have := hOge i hm; omega)).mpr hO
        obtain ⟨h1, h2, h3⟩ := ih (next.set i f0) (some i) f1 (i :: Z) O
          (by rw [List.length_set]; omega) hZ2 hO2
          (by intro j hj
              rw [List.mem_cons] at hj
              rcases hj with rfl | hj
              · omega
              · have := hZge j hj; omega)
          (fun j hj => by have := hOge j hj; omega)
        rw [List.length_set] at h1
        refine ⟨h1, ?_, ?_⟩
        · rw [bucket_succ, if_pos hb]
          have : bucket a bit 0 i ++ [i] ++ Z = bucket a bit 0 i ++ (i :: Z) := by
            simp
          rw [this]
          exact h2
        · rw [bucket_succ, if_neg (by omega)]
          simpa using h3
      · rw [hb, if_pos rfl]
        have hO2 : represents (next.set i f1) (some i) (i :: O) := by
          refine ⟨rfl, ?_⟩
          rw [getD_set_self next i f1 none hilt]
          exact (represents_set_outside O next f1 i f1
            (fun hm => by have := hOge i hm; omega)).mpr hO
        have hZ2 : represents (next.set i f1) f0 Z :=
          (represents_set_outside Z next f0 i f1
            (fun hm => by have := hZge i hm; omega)).mpr hZ
        obtain ⟨h1, h2, h3⟩ := ih (next.set i f1) f0 (some i) Z (i :: O)
          (by rw [List.length_set]; omega) hZ2 hO2
          (fun j hj => by have := hZge j hj; omega)
          (by intro j hj
              rw [List.mem_cons] at hj
              rcases hj with rfl | hj
              · omega
              · have := hOge j hj; omega)
        rw [List.length_set] at h1
        refine ⟨h1, ?_, ?_⟩
        · rw [bucket_succ, if_neg (by omega)]
          simpa using h2
        · rw [bucket_succ, if_pos hb]
          have : bucket a bit 1 i ++ [i] ++ O = bucket a bit 1 i ++ (i :: O) := by
            simp
          rw [this]
          exact h3

lemma assignLoop_spec : ∀ (L : List Nat) (fuel : Nat)
    (next : List (Option Nat)) (h : Option Nat) (i : Nat),
    represents next h L → L.Nodup → (∀ j ∈ L, j < next.length) →
    L.length ≤ fuel →
    ∃ next2, assignLoop fuel next h i = some (next2, i + L.length) ∧
      next2.length = next.length ∧
      (∀ (m : Nat) (hm : m < L.length),
        next2.getD (L.get ⟨m, hm⟩) none = some (i + m)) ∧
      (∀ k, k ∉ L → next2.getD k none = next.getD k none) := by
  intro L
  induction L with
  | nil =>
      intro fuel next h i hrep _ _ _
      have hh : h = none := hrep
      subst hh
      refine ⟨next, ?_, rfl, ?_, ?_⟩
      · cases fuel <;> rfl
      · intro m hm; simp at hm
      · intro k _; rfl
  | cons j L ih =>
      intro fuel next h i hrep hnd hlt hfuel
      obtain ⟨hh, htail⟩ := hrep
      subst hh
      cases fuel with
      | zero => simp at hfuel
      | succ f =>
          have hjlen : j < next.length := hlt j (by simp)
          have hjnot : j ∉ L := (List.nodup_cons.mp hnd).1
          have htail2 : represents (next.set j (some i)) (next.getD j none) L :=
            (represents_set_outside L next _ j (some i) hjnot).mpr htail
          obtain ⟨next2, heq, hlen2, hpos, hout⟩ := ih f (next.set j (some i))
            (next.getD j none) (i + 1) htail2 (List.nodup_cons.mp hnd).2
            (by intro q hq; rw [List.length_set]; exact hlt q (by simp [hq]))
            (by simp only [List.length_cons] at hfuel; omega)
          refine ⟨next2, ?_, ?_, ?_, ?_⟩
          · have harith : i + (j :: L).length = (i + 1) + L.length := by
              simp only [List.length_cons]; omega
            rw [harith]
            simpa only [assignLoop] using heq
          · rw [hlen2, List.length_set]
          · intro m hm
            cases m with
            | zero =>
                have hstep : next2.getD j none = (next.set j (some i)).getD j none :=
                  hout j hjnot
                show next2.getD j none = some (i + 0)
                rw [hstep, getD_set_self next j (some i) none hjlen,
                  Nat.add_zero]
            | succ m =>
                have hm2 : m < L.length := by
                  simp only [List.length_cons] at hm; omega
                have := hpos m hm2
                show next2.getD (L.get ⟨m, hm2⟩) none = some (i + (m + 1))
                rw [this]
                congr 1
                omega
          · intro k hk
            have hk1 : k ∉ L := fun hm => hk (by simp [hm])
            have hk2 : k ≠ j := fun e => hk (by simp [e])
            rw [hout k hk1, getD_set_ne next j k (some i) none hk2]

/-- Mid-phase-3 state: indices in `U` are untouched (they still hold their
original value `a0` and their destination link `sig`), indices outside `U`
are finished (self-link, final value `target`). -/
def PermState (n : Nat) (sig : Nat → Nat) (a0 target : List Nat)
    (U : Finset Nat) (a next : List Nat) : Prop :=
  a.length = n ∧ next.length = n ∧
  (∀ k, k < n → k ∈ U → next.getD k 0 = sig k ∧ a.getD k 0 = a0.getD k 0) ∧
  (∀ k, k < n → k ∉ U → next.getD k 0 = k ∧ a.getD k 0 = target.getD k 0)

lemma cycleWalk_stop (fuel : Nat) (a next : List Nat) (i jval : Nat) :
    cycleWalk fuel a next i jval i = some (a.set i jval, next.set i i) := by
  unfold cycleWalk
  simp

lemma cycleWalk_step (f : Nat) (a next : List Nat) (i jval j : Nat)
    (h : j ≠ i) :
    cycleWalk (f + 1) a next i jval j =
      cycleWalk f (a.set j jval) (next.set j j) i (a.getD j 0)
        (next.getD j 0) := by
  conv_lhs => unfold cycleWalk
  rw [if_pos h]

lemma cycleWalk_close (n : Nat) (sig : Nat → Nat) (a0 target : List Nat)
    (fuel : Nat) (U : Finset Nat) (a next : List Nat) (i : Nat)
    (hstate : PermState n sig a0 target U a next)
    (hbound : ∀ k ∈ U, k < n) (hiU : i ∈ U)
    (hc2 : ∀ k ∈ U, k ≠ i → sig k ∈ U)
    (hc3 : ∀ k ∈ U, sig k = i → k = i) :
    ∃ a2 next2,
      cycleWalk fuel a next i (target.getD i 0) i = some (a2, next2) ∧
      PermState n sig a0 target (U \ {i}) a2 next2 ∧
      (∀ k ∈ U \ {i}, sig k ∈ U \ {i}) := by
  obtain ⟨hal, hnl, hin, hout⟩ := hstate
  have hi : i < n := hbound i hiU
  refine ⟨a.set i (target.getD i 0), next.set i i, ?_, ?_, ?_⟩
  · exact cycleWalk_stop fuel a next i (target.getD i 0)
  · refine ⟨by rw [List.length_set, hal], by rw [List.length_set, hnl], ?_, ?_⟩
    · intro k hkn hkU
      rw [Finset.mem_sdiff, Finset.mem_singleton] at hkU
      obtain ⟨hkU, hki⟩ := hkU
      rw [getD_set_ne next i k i 0 hki, getD_set_ne a i k (target.getD i 0) 0 hki]
      exact hin k hkn hkU
    · intro k hkn hkU
      rw [Finset.mem_sdiff, Finset.mem_singleton] at hkU
      push_neg at hkU
      by_cases hki : k = i
      · subst hki
        rw [getD_set_self next k k 0 (by omega),
          getD_set_self a k (target.getD k 0) 0 (by omega)]
        exact ⟨rfl, rfl⟩
      · have hkU2 : k ∉ U := fun hmem => hki (hkU hmem)
        rw [getD_set_ne next i k i 0 hki,
          getD_set_ne a i k (target.getD i 0) 0 hki]
        exact hout k hkn hkU2
  · intro k hk
    rw [Finset.mem_sdiff, Finset.mem_singleton] at hk
    obtain ⟨hkU, hki⟩ := hk
    rw [Finset.mem_sdiff, Finset.mem_singleton]
    refine ⟨hc2 k hkU hki, ?_⟩
    intro hsig
    exact hki (hc3 k hkU hsig)

lemma cycleWalk_spec (n : Nat) (sig : Nat → Nat) (a0 target : List Nat)
    (hinj : ∀ x y, x < n → y < n → sig x = sig y → x = y)
    (htgt : ∀ x, x < n → target.getD (sig x) 0 = a0.getD x 0) :
    ∀ (fuel : Nat) (U : Finset Nat) (a next : List Nat) (i j : Nat),
    PermState n sig a0 target U a next →
    (∀ k ∈ U, k < n) → i ∈ U → j ∈ U →
    (∀ k ∈ U, sig k ≠ k) →
    (∀ k ∈ U, k ≠ i → sig k ∈ U) →
    (∀ k ∈ U, sig k = j → k = i) →
    U.card ≤ fuel + 1 →
    ∃ a2 next2 V,
      cycleWalk fuel a next i (target.getD j 0) j = some (a2, next2) ∧
      V ⊆ U ∧ i ∈ V ∧
      PermState n sig a0 target (U \ V) a2 next2 ∧
      (∀ k ∈ U \ V, sig k ∈ U \ V) := by
  intro fuel
  induction fuel with
  | zero =>
      intro U a next i j hstate hbound hiU hjU hnf hc2 hc3 hcard
      have hji : j = i := by
        by_contra hne
        have : 1 < U.card := Finset.one_lt_card.mpr ⟨j, hjU, i, hiU, hne⟩
        omega
      rw [hji]
      rw [hji] at hc3
      obtain ⟨a2, next2, heq, hps, hcl⟩ := cycleWalk_close n sig a0 target 0
        U a next i hstate hbound hiU hc2 hc3
      exact ⟨a2, next2, {i}, heq, Finset.singleton_subset_iff.mpr hiU,
        Finset.mem_singleton_self i, hps, hcl⟩
  | succ f ih =>
      intro U a next i j hstate hbound hiU hjU hnf hc2 hc3 hcard
      by_cases hji : j = i
      · rw [hji]
        rw [hji] at hc3
        obtain ⟨a2, next2, heq, hps, hcl⟩ := cycleWalk_close n sig a0 target
          (f + 1) U a next i hstate hbound hiU hc2 hc3
        exact ⟨a2, next2, {i}, heq, Finset.singleton_subset_iff.mpr hiU,
          Finset.mem_singleton_self i, hps, hcl⟩
      · obtain ⟨hal, hnl, hin, hout⟩ := hstate
        have hjn : j < n := hbound j hjU
        have hjlink : next.getD j 0 = sig j ∧ a.getD j 0 = a0.getD j 0 :=
          hin j hjn hjU
        have hsigjU : sig j ∈ U := hc2 j hjU hji
        have hsigjj : sig j ≠ j := hnf j hjU
        -- state after marking j
        have hstate2 : PermState n sig a0 target (U.erase j)
            (a.set j (target.getD j 0)) (next.set j j) := by
          refine ⟨by rw [List.length_set, hal], by rw [List.length_set, hnl],
            ?_, ?_⟩
          · intro k hkn hkU
            rw [Finset.mem_erase] at hkU
            obtain ⟨hkj, hkU⟩ := hkU
            rw [getD_set_ne next j k j 0 hkj,
              getD_set_ne a j k (target.getD j 0) 0 hkj]
            exact hin k hkn hkU
          · intro k hkn hkU
            by_cases hkj : k = j
            · subst hkj
              rw [getD_set_self next k k 0 (by omega),
                getD_set_self a k (target.getD k 0) 0 (by omega)]
              exact ⟨rfl, rfl⟩
            · have hkU2 : k ∉ U := by
                intro hmem
                exact hkU (Finset.mem_erase.mpr ⟨hkj, hmem⟩)
              rw [getD_set_ne next j k j 0 hkj,
                getD_set_ne a j k (target.getD j 0) 0 hkj]
              exact hout k hkn hkU2
        have hiU2 : i ∈ U.erase j := Finset.mem_erase.mpr ⟨fun e => hji e.symm, hiU⟩
        have hjU2 : sig j ∈ U.erase j := Finset.mem_erase.mpr ⟨hsigjj, hsigjU⟩
        obtain ⟨a2, next2, V1, heq, hV1, hiV1, hps, hcl⟩ := ih (U.erase j)
          (a.set j (target.getD j 0)) (next.set j j) i (sig j) hstate2
          (fun k hk => hbound k (Finset.mem_of_mem_erase hk)) hiU2 hjU2
          (fun k hk => hnf k (Finset.mem_of_mem_erase hk))
          (by intro k hk hki
              have hkU := Finset.mem_of_mem_erase hk
              have hkj := (Finset.mem_erase.mp hk).1
              refine Finset.mem_erase.mpr ⟨?_, hc2 k hkU hki⟩
              intro hsig
              exact hki (hc3 k hkU hsig))
          (by intro k hk hsig
              have hkU := Finset.mem_of_mem_erase hk
              have hkj := (Finset.mem_erase.mp hk).1
              exact absurd (hinj k j (hbound k hkU) hjn hsig) hkj)
          (by rw [Finset.card_erase_of_mem hjU]; omega)
        refine ⟨a2, next2, insert j V1, ?_, ?_, ?_, ?_, ?_⟩
        · rw [cycleWalk_step f a next i (target.getD j 0) j hji,
            hjlink.1, hjlink.2, ← htgt j hjn]
          exact heq
        · intro x hx
          rw [Finset.mem_insert] at hx
          rcases hx with rfl | hx
          · exact hjU
          · exact Finset.mem_of_mem_erase (hV1 hx)
        · exact Finset.mem_insert_of_mem hiV1
        · have hUV : U \ insert j V1 = U.erase j \ V1 := by
            ext x
            simp only [Finset.mem_sdiff, Finset.mem_insert, Finset.mem_erase]
            tauto
          rw [hUV]
          exact hps
        · have hUV : U \ insert j V1 = U.erase j \ V1 := by
            ext x
            simp only [Finset.mem_sdiff, Finset.mem_insert, Finset.mem_erase]
            tauto
          rw [hUV]
          exact hcl

lemma permLoop_spec (n : Nat) (sig : Nat → Nat) (a0 target : List Nat)
    (hinj : ∀ x y, x < n → y < n → sig x = sig y → x = y)
    (htgt : ∀ x, x < n → target.getD (sig x) 0 = a0.getD x 0) :
    ∀ (i : Nat) (U : Finset Nat) (a next : List Nat),
    PermState n sig a0 target U a next →
    (∀ k ∈ U, k < n) → (∀ k ∈ U, k < i) →
    (∀ k ∈ U, sig k ∈ U) → (∀ k ∈ U, sig k ≠ k) → i ≤ n →
    ∃ a2 next2, permLoop i a next = some (a2, next2) ∧
      a2.length = n ∧ (∀ k, k < n → a2.getD k 0 = target.getD k 0) := by
  intro i
  induction i with
  | zero =>
      intro U a next hstate hbound hlt _ _ _
      have hU : U = ∅ :=
        Finset.eq_empty_of_forall_not_mem (fun k hk => by have := hlt k hk; omega)
      subst hU
      obtain ⟨hal, _, _, hout⟩ := hstate
      exact ⟨a, next, rfl, hal, fun k hk => (hout k hk (by simp)).2⟩
  | succ i ih =>
      intro U a next hstate hbound hlt hclosed hnf hin
      have hi_n : i < n := by omega
      by_cases hiU : i ∈ U
      · obtain ⟨hal, hnl, hinn, hout⟩ := hstate
        have hlink := hinn i hi_n hiU
        have hnfi : sig i ≠ i := hnf i hiU
        have hji : next.getD i 0 ≠ i := by rw [hlink.1]; exact hnfi
        have hjval : a.getD i 0 = target.getD (sig i) 0 := by
          rw [hlink.2, htgt i hi_n]
        have hcard : U.card ≤ a.length + 1 := by
          have hsub : U ⊆ Finset.range n :=
            fun k hk => Finset.mem_range.mpr (hbound k hk)
          have := Finset.card_le_card hsub
          rw [Finset.card_range] at this
          omega
        obtain ⟨a2, next2, V, heq, hV, hiV, hps, hcl⟩ :=
          cycleWalk_spec n sig a0 target hinj htgt a.length U a next i (sig i)
            ⟨hal, hnl, hinn, hout⟩ hbound hiU (hclosed i hiU) hnf
            (fun k hk _ => hclosed k hk)
            (fun k hk hsig => hinj k i (hbound k hk) hi_n hsig)
            hcard
        obtain ⟨a3, next3, heq3, hlen3, hvals⟩ := ih (U \ V) a2 next2 hps
          (fun k hk => hbound k (Finset.mem_sdiff.mp hk).1)
          (fun k hk => by
            have h1 := hlt k (Finset.mem_sdiff.mp hk).1
            have h2 : k ≠ i := fun e => (Finset.mem_sdiff.mp hk).2 (e ▸ hiV)
            omega)
          hcl
          (fun k hk => hnf k (Finset.mem_sdiff.mp hk).1)
          (by omega)
        refine ⟨a3, next3, ?_, hlen3, hvals⟩
        show permLoop (i + 1) a next = some (a3, next3)
        simp only [permLoop]
        rw [if_pos hji, hlink.1, hjval, heq]
        exact heq3
      · obtain ⟨hal, hnl, hinn, hout⟩ := hstate
        have hlink := hout i hi_n hiU
        obtain ⟨a3, next3, heq3, hlen3, hvals⟩ := ih U a next
          ⟨hal, hnl, hinn, hout⟩ hbound
          (fun k hk => by
            have h1 := hlt k hk
            have h2 : k ≠ i := fun e => hiU (e ▸ hk)
            omega)
          hclosed hnf (by omega)
        refine ⟨a3, next3, ?_, hlen3, hvals⟩
        show permLoop (i + 1) a next = some (a3, next3)
        simp only [permLoop]
        rw [hlink.1, if_neg (by simp)]
        exact heq3

lemma represents_congr : ∀ (L : List Nat) (next1 next2 : List (Option Nat))
    (h : Option Nat),
    (∀ k ∈ L, next1.getD k none = next2.getD k none) →
    (represents next1 h L ↔ represents next2 h L) := by
  intro L
  induction L with
  | nil => intro next1 next2 h _; exact Iff.rfl
  | cons j L ih =>
      intro next1 next2 h hagree
      simp only [represents]
      rw [hagree j (by simp)]
      constructor
      · rintro ⟨h1, h2⟩
        exact ⟨h1, (ih next1 next2 _ (fun k hk => hagree k (by simp [hk]))).mp h2⟩
      · rintro ⟨h1, h2⟩
        exact ⟨h1, (ih next1 next2 _ (fun k hk => hagree k (by simp [hk]))).mpr h2⟩

lemma map_getD_filter_range (a : List Nat) (p : Nat → Bool) :
    ((List.range a.length).filter (fun i => p (a.getD i 0))).map
      (fun i => a.getD i 0) = a.filter p := by
  induction a using List.reverseRecOn with
  | nil => rfl
  | append_singleton l x ih =>
      have hlen : (l ++ [x]).length = l.length + 1 := by simp
      rw [hlen, List.range_succ, List.filter_append, List.map_append,
        List.filter_append]
      have h1 : (List.range l.length).filter (fun i => p ((l ++ [x]).getD i 0))
          = (List.range l.length).filter (fun i => p (l.getD i 0)) := by
        apply List.filter_congr
        intro i hi
        rw [List.getD_append l [x] 0 i (List.mem_range.mp hi)]
      rw [h1]
      have h2 : ((List.range l.length).filter (fun i => p (l.getD i 0))).map
            (fun i => (l ++ [x]).getD i 0)
          = ((List.range l.length).filter (fun i => p (l.getD i 0))).map
            (fun i => l.getD i 0) := by
        apply List.map_congr_left
        intro i hi
        have hi2 : i ∈ List.range l.length := List.mem_of_mem_filter hi
        exact List.getD_append l [x] 0 i (List.mem_range.mp hi2)
      rw [h2, ih]
      have hx : (l ++ [x]).getD l.length 0 = x := by
        rw [List.getD_append_right l [x] 0 l.length (Nat.le_refl _)]
        simp
      congr 1
      simp only [List.filter_cons, List.filter_nil]
      by_cases hp : p x = true
      · rw [if_pos (by rwa [hx]), if_pos hp]
        simp [hx]
      · rw [if_neg (by rwa [hx]), if_neg hp]
        rfl

lemma radixPass_spec (a : List Nat) (bit : Nat) :
    radixPass a bit =
      some (a.filter (fun x => x / 2 ^ bit % 2 = 0) ++
            a.filter (fun x => x / 2 ^ bit % 2 = 1)) := by
  -- phase 1: the bucket lists
  obtain ⟨hblen, hbZ, hbO⟩ := buildLoop_spec a bit a.length
    (List.replicate a.length none) none none [] []
    (by rw [List.length_replicate]) rfl rfl (by simp) (by simp)
  rw [List.length_replicate] at hblen
  rw [List.append_nil] at hbZ hbO
  -- abbreviations
  have hZnodup : (bucket a bit 0 a.length).Nodup :=
    (List.nodup_range a.length).filter _
  have hOnodup : (bucket a bit 1 a.length).Nodup :=
    (List.nodup_range a.length).filter _
  have hZlt : ∀ j ∈ bucket a bit 0 a.length, j < a.length := by
    intro j hj
    unfold bucket at hj
    exact List.mem_range.mp (List.mem_of_mem_filter hj)
  have hOlt : ∀ j ∈ bucket a bit 1 a.length, j < a.length := by
    intro j hj
    unfold bucket at hj
    exact List.mem_range.mp (List.mem_of_mem_filter hj)
  have hZO : ∀ j ∈ bucket a bit 0 a.length, j ∉ bucket a bit 1 a.length := by
    intro j hj0 hj1
    unfold bucket at hj0 hj1
    have h0 := List.of_mem_filter hj0
    have h1 := List.of_mem_filter hj1
    simp only [decide_eq_true_eq] at h0 h1
    omega
  have hZlen : (bucket a bit 0 a.length).length ≤ a.length := by
    calc (bucket a bit 0 a.length).length
        ≤ (List.range a.length).length := (List.range a.length).length_filter_le _
      _ = a.length := List.length_range a.length
  have hOlen : (bucket a bit 1 a.length).length ≤ a.length := by
    calc (bucket a bit 1 a.length).length
        ≤ (List.range a.length).length := (List.range a.length).length_filter_le _
      _ = a.length := List.length_range a.length
  -- phase 2, bucket 0
  obtain ⟨next1, heq1, hlen1, hpos1, hout1⟩ := assignLoop_spec
    (bucket a bit 0 a.length) a.length
    (buildLoop a bit a.length (List.replicate a.length none) none none).1
    (buildLoop a bit a.length (List.replicate a.length none) none none).2.1
    0 hbZ hZnodup (fun j hj => by rw [hblen]; exact hZlt j hj) hZlen
  -- phase 2, bucket 1
  have hbO1 : represents next1
      (buildLoop a bit a.length (List.replicate a.length none) none none).2.2
      (bucket a bit 1 a.length) := by
    refine (represents_congr (bucket a bit 1 a.length) next1 _ _ ?_).mpr hbO
    intro k hk
    exact hout1 k (fun hmem => hZO k hmem hk)
  obtain ⟨next2, heq2, hlen2, hpos2, hout2⟩ := assignLoop_spec
    (bucket a bit 1 a.length) a.length next1
    (buildLoop a bit a.length (List.replicate a.length none) none none).2.2
    (0 + (bucket a bit 0 a.length).length) hbO1 hOnodup
    (fun j hj => by rw [hlen1, hblen]; exact hOlt j hj) hOlen
  have hn2len : next2.length = a.length := by rw [hlen2, hlen1, hblen]
  -- the enumeration order and the destination map
  have hperm : (bucket a bit 0 a.length ++ bucket a bit 1 a.length).Perm
      (List.range a.length) := by
    have h1 : bucket a bit 1 a.length = (List.range a.length).filter
        (fun i => !(decide ((a.getD i 0) / 2 ^ bit % 2 = 0))) := by
      apply List.filter_congr
      intro i _
      have hv : a[i]?.getD 0 / 2 ^ bit % 2 = 0 ∨
          a[i]?.getD 0 / 2 ^ bit % 2 = 1 := by omega
      rcases hv with hv | hv <;> simp [hv]
    rw [h1]
    exact List.filter_append_perm _ _
  have hordlen : (bucket a bit 0 a.length ++ bucket a bit 1 a.length).length
      = a.length := by rw [hperm.length_eq, List.length_range]
  -- `next2` holds the rank of every index in the enumeration order
  have hrank : ∀ (m : Nat)
      (hm : m < (bucket a bit 0 a.length ++ bucket a bit 1 a.length).length),
      next2.getD ((bucket a bit 0 a.length ++ bucket a bit 1 a.length)[m]) none
        = some m := by
    intro m hm
    by_cases hmZ : m < (bucket a bit 0 a.length).length
    · rw [List.getElem_append_left hmZ]
      have hmem : (bucket a bit 0 a.length)[m] ∈ bucket a bit 0 a.length :=
        List.getElem_mem _
      rw [hout2 _ (fun hmem1 => hZO _ hmem hmem1)]
      have := hpos1 m hmZ
      rw [List.get_eq_getElem] at this
      rw [this]
      rw [Nat.zero_add]
    · push_neg at hmZ
      rw [List.getElem_append_right hmZ]
      have hm2 : m - (bucket a bit 0 a.length).length <
          (bucket a bit 1 a.length).length := by
        rw [List.length_append] at hm
        omega
      have := hpos2 (m - (bucket a bit 0 a.length).length) hm2
      rw [List.get_eq_getElem] at this
      rw [this]
      congr 1
      omega
  -- every index below n appears in the order list
  have hmem_ord : ∀ x, x < a.length →
      ∃ (m : Fin (bucket a bit 0 a.length ++ bucket a bit 1 a.length).length),
        (bucket a bit 0 a.length ++ bucket a bit 1 a.length).get m = x := by
    intro x hx
    have : x ∈ bucket a bit 0 a.length ++ bucket a bit 1 a.length :=
      hperm.mem_iff.mpr (List.mem_range.mpr hx)
    exact List.mem_iff_get.mp this
  -- the destination map and its properties
  have hdest : ∀ k, (next2.map (fun o => o.getD 0)).getD k 0
      = (next2.getD k none).getD 0 := by
    intro k
    exact List.getD_map next2 none (fun o => o.getD 0)
  have hsig_get : ∀ (m : Nat)
      (hm : m < (bucket a bit 0 a.length ++ bucket a bit 1 a.length).length),
      (next2.map (fun o => o.getD 0)).getD
        ((bucket a bit 0 a.length ++ bucket a bit 1 a.length)[m]) 0 = m := by
    intro m hm
    rw [hdest, hrank m hm]
    rfl
  have hsig_lt : ∀ x, x < a.length →
      (next2.map (fun o => o.getD 0)).getD x 0 < a.length := by
    intro x hx
    obtain ⟨m, hget⟩ := hmem_ord x hx
    rw [List.get_eq_getElem] at hget
    rw [← hget, hsig_get m.1 m.2]
    omega
  have hsig_inj : ∀ x y, x < a.length → y < a.length →
      (next2.map (fun o => o.getD 0)).getD x 0
        = (next2.map (fun o => o.getD 0)).getD y 0 → x = y := by
    intro x y hx hy hxy
    obtain ⟨mx, hgx⟩ := hmem_ord x hx
    obtain ⟨my, hgy⟩ := hmem_ord y hy
    rw [List.get_eq_getElem] at hgx hgy
    rw [← hgx, ← hgy, hsig_get mx.1 mx.2, hsig_get my.1 my.2] at hxy
    have hmxy : mx = my := Fin.ext hxy
    rw [← hgx, ← hgy, hmxy]
  -- the target array (the stably partitioned contents)
  have htgtlen : ((bucket a bit 0 a.length ++ bucket a bit 1 a.length).map
      (fun j => a.getD j 0)).length = a.length := by
    rw [List.length_map, hordlen]
  have htgt : ∀ x, x < a.length →
      ((bucket a bit 0 a.length ++ bucket a bit 1 a.length).map
        (fun j => a.getD j 0)).getD
        ((next2.map (fun o => o.getD 0)).getD x 0) 0 = a.getD x 0 := by
    intro x hx
    obtain ⟨m, hget⟩ := hmem_ord x hx
    rw [List.get_eq_getElem] at hget
    rw [← hget, hsig_get m.1 m.2]
    have hmlt : m.1 < ((bucket a bit 0 a.length ++ bucket a bit 1 a.length).map
        (fun j => a.getD j 0)).length := by rw [List.length_map]; exact m.2
    rw [List.getD_eq_getElem _ _ hmlt, List.getElem_map]
  -- initial permutation state
  obtain ⟨afin, nfin, heqP, hflen, hfvals⟩ := permLoop_spec a.length
    (fun k => (next2.map (fun o => o.getD 0)).getD k 0) a
    ((bucket a bit 0 a.length ++ bucket a bit 1 a.length).map
      (fun j => a.getD j 0))
    hsig_inj htgt a.length
    ((Finset.range a.length).filter
      (fun k => (next2.map (fun o => o.getD 0)).getD k 0 ≠ k))
    a (next2.map (fun o => o.getD 0))
    (by
      refine ⟨rfl, by rw [List.length_map, hn2len], ?_, ?_⟩
      · intro k _ _
        exact ⟨rfl, rfl⟩
      · intro k hkn hkU
        have hfix : (next2.map (fun o => o.getD 0)).getD k 0 = k := by
          by_contra hne
          exact hkU (Finset.mem_filter.mpr ⟨Finset.mem_range.mpr hkn, hne⟩)
        refine ⟨hfix, ?_⟩
        have := htgt k hkn
        rw [hfix] at this
        exact this.symm)
    (fun k hk => Finset.mem_range.mp (Finset.mem_filter.mp hk).1)
    (fun k hk => Finset.mem_range.mp (Finset.mem_filter.mp hk).1)
    (by
      intro k hk
      have hkn := Finset.mem_range.mp (Finset.mem_filter.mp hk).1
      have hkfix := (Finset.mem_filter.mp hk).2
      refine Finset.mem_filter.mpr ⟨Finset.mem_range.mpr (hsig_lt k hkn), ?_⟩
      intro hfix
      exact hkfix (hsig_inj _ _ (hsig_lt k hkn) hkn hfix))
    (fun k hk => (Finset.mem_filter.mp hk).2)
    (Nat.le_refl _)
  -- the final array equals the stable partition
  have hafin : afin = (bucket a bit 0 a.length ++ bucket a bit 1 a.length).map
      (fun j => a.getD j 0) := by
    apply List.ext_getElem (by rw [hflen, htgtlen])
    intro k hk1 hk2
    have hkn : k < a.length := by rw [hflen] at hk1; exact hk1
    have := hfvals k hkn
    rwa [List.getD_eq_getElem _ _ hk1, List.getD_eq_getElem _ _ hk2] at this
  have htgt_filters : (bucket a bit 0 a.length ++ bucket a bit 1 a.length).map
      (fun j => a.getD j 0)
      = a.filter (fun x => x / 2 ^ bit % 2 = 0) ++
        a.filter (fun x => x / 2 ^ bit % 2 = 1) := by
    rw [List.map_append]
    congr 1
    · exact map_getD_filter_range a (fun x => x / 2 ^ bit % 2 = 0)
    · exact map_getD_filter_range a (fun x => x / 2 ^ bit % 2 = 1)
  -- assemble the pass
  unfold radixPass
  dsimp only
  rw [heq1]
  dsimp only
  rw [heq2]
  dsimp only
  rw [heqP]
  show some afin = _
  rw [hafin, htgt_filters]

lemma pairwise_of_all {α : Type} (R : α → α → Prop) (h : ∀ x y, R x y) :
    ∀ l : List α, List.Pairwise R l
  | [] => List.Pairwise.nil
  | x :: l => List.Pairwise.cons (fun y _ => h x y) (pairwise_of_all R h l)

lemma filter_bit_one_eq (l : List Nat) (bit : Nat) :
    l.filter (fun x => x / 2 ^ bit % 2 = 1) =
      l.filter (fun x => !(decide (x / 2 ^ bit % 2 = 0))) := by
  apply List.filter_congr
  intro x _
  have hv : x / 2 ^ bit % 2 = 0 ∨ x / 2 ^ bit % 2 = 1 := by omega
  rcases hv with hv | hv <;> simp [hv]

lemma radixPass_sorted (a : List Nat) (bit : Nat)
    (h : List.Pairwise (fun x y => x % 2 ^ bit ≤ y % 2 ^ bit) a) :
    List.Pairwise (fun x y => x % 2 ^ (bit + 1) ≤ y % 2 ^ (bit + 1))
      (a.filter (fun x => x / 2 ^ bit % 2 = 0) ++
       a.filter (fun x => x / 2 ^ bit % 2 = 1)) := by
  have hmod : ∀ x : Nat,
      x % 2 ^ (bit + 1) = x % 2 ^ bit + 2 ^ bit * (x / 2 ^ bit % 2) := by
    intro x
    rw [pow_succ]
    exact Nat.mod_mul
  have hpow : 0 < 2 ^ bit := Nat.pos_pow_of_pos bit (by norm_num)
  rw [List.pairwise_append]
  refine ⟨?_, ?_, ?_⟩
  · refine (h.filter _).imp_of_mem ?_
    intro x y hx hy hr
    have hbx := List.of_mem_filter hx
    have hby := List.of_mem_filter hy
    simp only [decide_eq_true_eq] at hbx hby
    rw [hmod x, hmod y, hbx, hby]
    omega
  · refine (h.filter _).imp_of_mem ?_
    intro x y hx hy hr
    have hbx := List.of_mem_filter hx
    have hby := List.of_mem_filter hy
    simp only [decide_eq_true_eq] at hbx hby
    rw [hmod x, hmod y, hbx, hby]
    omega
  · intro x hx y hy
    have hbx := List.of_mem_filter hx
    have hby := List.of_mem_filter hy
    simp only [decide_eq_true_eq] at hbx hby
    rw [hmod x, hmod y, hbx, hby]
    have : x % 2 ^ bit < 2 ^ bit := Nat.mod_lt x hpow
    omega

lemma radixFold (k : Nat) : ∀ (l : List Nat),
    ∃ l2, (List.range k).foldl
        (fun acc bit => acc.bind (fun s => radixPass s bit)) (some l)
        = some l2 ∧
      l2.Perm l ∧ List.Pairwise (fun x y => x % 2 ^ k ≤ y % 2 ^ k) l2 := by
  induction k with
  | zero =>
      intro l
      exact ⟨l, rfl, List.Perm.refl l,
        pairwise_of_all _ (fun x y => by simp [Nat.mod_one]) l⟩
  | succ k ih =>
      intro l
      obtain ⟨l2, heq, hperm, hsort⟩ := ih l
      refine ⟨l2.filter (fun x => x / 2 ^ k % 2 = 0) ++
        l2.filter (fun x => x / 2 ^ k % 2 = 1), ?_, ?_, ?_⟩
      · rw [List.range_succ, List.foldl_append, heq]
        simp only [List.foldl_cons, List.foldl_nil]
        show radixPass l2 k = _
        exact radixPass_spec l2 k
      · have h1 : (l2.filter (fun x => x / 2 ^ k % 2 = 0) ++
            l2.filter (fun x => x / 2 ^ k % 2 = 1)).Perm l2 := by
          rw [filter_bit_one_eq]
          exact List.filter_append_perm _ l2
        exact h1.trans hperm
      · exact radixPass_sorted l2 k hsort

/-- C10: for every n and every list that is a permutation of
{0, ..., n-1}, the LSB-first base-2 radix sort terminates and rearranges
the list into [0, 1, ..., n-1] (its bit count, derived from the array
length, covers all values since they are below n). -/
theorem C10_radix_sorts_range (n : Nat) (a : List Nat)
    (hperm : a.Perm (List.range n)) :
    binary_radixsort_lsb a = some (List.range n) := by
  obtain ⟨l2, heq, hp, hsort⟩ := radixFold (bitsFor a.length) a
  unfold binary_radixsort_lsb
  rw [heq]
  have hlen : a.length = n := by rw [hperm.length_eq, List.length_range]
  have hval : ∀ x ∈ l2, x < n := by
    intro x hx
    have : x ∈ List.range n := hperm.mem_iff.mp (hp.mem_iff.mp hx)
    exact List.mem_range.mp this
  have hsorted : List.Sorted (· ≤ ·) l2 := by
    refine hsort.imp_of_mem ?_
    intro x y hx hy hr
    have hxlt : x < 2 ^ bitsFor a.length :=
      Nat.lt_of_lt_of_le (hval x hx) (hlen ▸ bitsFor_ge a.length)
    have hylt : y < 2 ^ bitsFor a.length :=
      Nat.lt_of_lt_of_le (hval y hy) (hlen ▸ bitsFor_ge a.length)
    rwa [Nat.mod_eq_of_lt hxlt, Nat.mod_eq_of_lt hylt] at hr
  exact congrArg some
    (List.eq_of_perm_of_sorted (hp.trans hperm) hsorted (List.sorted_le_range n))

/-- Witness for C10 at a concrete input: the permutation [2, 0, 1] of
{0, 1, 2} is sorted into [0, 1, 2]. -/
theorem C10_radix_sorts_range_witness :
    ([2, 0, 1] : List Nat).Perm (List.range 3) ∧
    binary_radixsort_lsb [2, 0, 1] = some (List.range 3) :=
  ⟨by decide, C10_radix_sorts_range 3 [2, 0, 1] (by decide)⟩
